import Mathlib

/-!
Verification of the BC protocol engine of the `bachuan` camera client.

This file gives a shallow embedding, in Lean, of the protocol core:
the BcXor stream cipher, MD5 and the hex/key-derivation helpers
(`src/protocol/bc_crypto.cpp`, `src/utils/md5.cpp`), the AES-CFB mode
wrapper, the message header and the transport's send/receive body
processing (`src/protocol/bc_header.cpp`, `src/client/connection.cpp`),
and the BcMedia record parser (`src/protocol/bc_media.cpp`).

Bytes are modelled as `Nat` values (< 256 on real data); machine
integers use explicit `% 2 ^ 32` where the C++ relies on `uint32_t`
wrap-around.  Buffers are `List Nat`.  The AES-128 block function lives
in OpenSSL, outside this repository, so it is taken as an abstract
parameter `E : List Nat → List Nat` assumed to produce 16-byte blocks;
everything the repository itself implements (the CFB chaining, the per
message reset to the fixed IV, the selective decryption) is embedded
concretely.
-/

namespace Bachuan

/-- ASCII bytes of a string, as the C++ code sees `std::string` data. -/
def asciiBytes (s : String) : List Nat := s.data.map (fun c => c.toNat)

/-- Byte-wise XOR of two buffers, truncating to the shorter one
(mirrors how CFB combines a partial final block with the keystream). -/
def zipXor (a b : List Nat) : List Nat := List.zipWith (fun x y => x ^^^ y) a b

/-- The slice `[b, e)` of a buffer, as the C++ iterator-range
constructor `assign(data + b, data + e)` produces it when `b ≤ e`. -/
def listSlice (l : List Nat) (b e : Nat) : List Nat := (l.drop b).take (e - b)

/-! ## BcXor cipher — `BcCrypto::bc_encrypt_decrypt`, src/protocol/bc_crypto.cpp:184-198 -/

/-- Fixed XOR key `BC_ENCRYPT_KEY`, src/protocol/bc_crypto.h:12. -/
def BC_ENCRYPT_KEY : List Nat := [0x1F, 0x2D, 0x3C, 0x4B, 0x5A, 0x69, 0x78, 0xFF]

/-- `BcCrypto::bc_encrypt_decrypt`: output byte `i` is
`data[i] ^ BC_ENCRYPT_KEY[(offset + i) % 8] ^ (offset & 0xFF)`. -/
def bc_encrypt_decrypt (offset : Nat) (data : List Nat) : List Nat :=
  (List.range data.length).map (fun i =>
    data.getD i 0 ^^^ BC_ENCRYPT_KEY.getD ((offset + i) % 8) 0 ^^^ (offset % 256))

/-! ## MD5 — `MD5::hash`, src/utils/md5.cpp:10-44

The repository computes MD5 through OpenSSL's `EVP_md5()`; the digest
function itself is external library code, so it is embedded here as the
standard MD5 algorithm (RFC 1321) that `EVP_md5()` implements, over
byte lists, with 32-bit words as `Nat` reduced `% 2 ^ 32`. -/

/-- Truncate to a 32-bit word. -/
def u32 (n : Nat) : Nat := n % 4294967296

/-- Rotate a 32-bit word left by `n` bits. -/
def rotl32 (x n : Nat) : Nat := u32 ((x <<< n) + (x >>> (32 - n)))

/-- Little-endian bytes of a 32-bit word. -/
def u32LeBytes (v : Nat) : List Nat :=
  [v % 256, v / 256 % 256, v / 65536 % 256, v / 16777216 % 256]

/-- Little-endian bytes of a 64-bit word. -/
def u64LeBytes (v : Nat) : List Nat :=
  u32LeBytes (v % 4294967296) ++ u32LeBytes (v / 4294967296)

/-- The 64 MD5 sine-derived round constants `K[i] = ⌊2^32·|sin(i+1)|⌋`. -/
def md5K : List Nat :=
  [0xd76aa478, 0xe8c7b756, 0x242070db, 0xc1bdceee,
   0xf57c0faf, 0x4787c62a, 0xa8304613, 0xfd469501,
   0x698098d8, 0x8b44f7af, 0xffff5bb1, 0x895cd7be,
   0x6b901122, 0xfd987193, 0xa679438e, 0x49b40821,
   0xf61e2562, 0xc040b340, 0x265e5a51, 0xe9b6c7aa,
   0xd62f105d, 0x02441453, 0xd8a1e681, 0xe7d3fbc8,
   0x21e1cde6, 0xc33707d6, 0xf4d50d87, 0x455a14ed,
   0xa9e3e905, 0xfcefa3f8, 0x676f02d9, 0x8d2a4c8a,
   0xfffa3942, 0x8771f681, 0x6d9d6122, 0xfde5380c,
   0xa4beea44, 0x4bdecfa9, 0xf6bb4b60, 0xbebfbc70,
   0x289b7ec6, 0xeaa127fa, 0xd4ef3085, 0x04881d05,
   0xd9d4d039, 0xe6db99e5, 0x1fa27cf8, 0xc4ac5665,
   0xf4292244, 0x432aff97, 0xab9423a7, 0xfc93a039,
   0x655b59c3, 0x8f0ccc92, 0xffeff47d, 0x85845dd1,
   0x6fa87e4f, 0xfe2ce6e0, 0xa3014314, 0x4e0811a1,
   0xf7537e82, 0xbd3af235, 0x2ad7d2bb, 0xeb86d391]

/-- The 64 MD5 per-round left-rotation amounts. -/
def md5S : List Nat :=
  [7, 12, 17, 22, 7, 12, 17, 22, 7, 12, 17, 22, 7, 12, 17, 22,
   5,  9, 14, 20, 5,  9, 14, 20, 5,  9, 14, 20, 5,  9, 14, 20,
   4, 11, 16, 23, 4, 11, 16, 23, 4, 11, 16, 23, 4, 11, 16, 23,
   6, 10, 15, 21, 6, 10, 15, 21, 6, 10, 15, 21, 6, 10, 15, 21]

/-- The MD5 nonlinear function for round `i` applied to `(b, c, d)`. -/
def md5F (i b c d : Nat) : Nat :=
  if i < 16 then (b &&& c) ||| ((b ^^^ 0xFFFFFFFF) &&& d)
  else if i < 32 then (d &&& b) ||| ((d ^^^ 0xFFFFFFFF) &&& c)
  else if i < 48 then b ^^^ c ^^^ d
  else c ^^^ (b ||| (d ^^^ 0xFFFFFFFF))

/-- The MD5 message-word index for round `i`. -/
def md5G (i : Nat) : Nat :=
  if i < 16 then i
  else if i < 32 then (5 * i + 1) % 16
  else if i < 48 then (3 * i + 5) % 16
  else (7 * i) % 16

/-- One 64-round MD5 compression over message words `m`, starting from
chaining state `(a, b, c, d)` and adding it back at the end. -/
def md5Compress (m : List Nat) (st : Nat × Nat × Nat × Nat) :
    Nat × Nat × Nat × Nat :=
  let r := (List.range 64).foldl
    (fun acc i =>
      match acc with
      | (a, b, c, d) =>
        let f := u32 (md5F i b c d + a + md5K.getD i 0 + m.getD (md5G i) 0)
        (d, u32 (b + rotl32 f (md5S.getD i 0)), b, c))
    st
  match st, r with
  | (a0, b0, c0, d0), (a, b, c, d) =>
    (u32 (a0 + a), u32 (b0 + b), u32 (c0 + c), u32 (d0 + d))

/-- MD5 padding: `0x80`, zeros to 56 mod 64, then the 64-bit LE bit length. -/
def md5Pad (msg : List Nat) : List Nat :=
  msg ++ [0x80] ++ List.replicate ((119 - msg.length % 64) % 64) 0
      ++ u64LeBytes ((8 * msg.length) % 18446744073709551616)

/-- Split a padded message into its 64-byte blocks. -/
def md5Blocks (p : List Nat) : List (List Nat) :=
  (List.range (p.length / 64)).map (fun i => (p.drop (64 * i)).take 64)

/-- The 16 little-endian 32-bit words of a 64-byte block. -/
def md5Words (blk : List Nat) : List Nat :=
  (List.range 16).map (fun j =>
    blk.getD (4 * j) 0 + 256 * blk.getD (4 * j + 1) 0
      + 65536 * blk.getD (4 * j + 2) 0 + 16777216 * blk.getD (4 * j + 3) 0)

/-- `MD5::hash`: the 16-byte MD5 digest of a byte sequence. -/
def md5 (msg : List Nat) : List Nat :=
  let st := (md5Blocks (md5Pad msg)).foldl
    (fun st blk => md5Compress (md5Words blk) st)
    (0x67452301, 0xefcdab89, 0x98badcfe, 0x10325476)
  match st with
  | (a, b, c, d) => u32LeBytes a ++ u32LeBytes b ++ u32LeBytes c ++ u32LeBytes d

/-- ASCII code of the lowercase hex digit for `n < 16`
(`std::hex` without `std::uppercase`, as in `MD5::to_hex`). -/
def hexDigitLower (n : Nat) : Nat := if n < 10 then 48 + n else 87 + n

/-- ASCII code of the uppercase hex digit for `n < 16`
(`std::uppercase << std::hex`). -/
def hexDigitUpper (n : Nat) : Nat := if n < 10 then 48 + n else 55 + n

/-- Lowercase hex rendering of a byte sequence, two digits per byte. -/
def toHexLower (digest : List Nat) : List Nat :=
  (digest.map (fun b => [hexDigitLower (b / 16 % 16), hexDigitLower (b % 16)])).flatten

/-- Uppercase hex rendering of a byte sequence, two digits per byte. -/
def toHexUpper (digest : List Nat) : List Nat :=
  (digest.map (fun b => [hexDigitUpper (b / 16 % 16), hexDigitUpper (b % 16)])).flatten

/-! ## Key derivation — `BcCrypto::derive_aes_key`, src/protocol/bc_crypto.cpp:121-152 -/

/-- `BcCrypto::derive_aes_key`: MD5 of `nonce ++ "-" ++ password`,
rendered as hex with `std::uppercase << std::hex`, then the loop
`key[i] = hex_str[i]` for `i < 16 && i < hex_str.size()`. -/
def derive_aes_key (password nonce : List Nat) : List Nat :=
  let key_phrase := nonce ++ [45] ++ password
  let hex_str := toHexUpper (md5 key_phrase)
  (List.range 16).map (fun i => hex_str.getD i 0)

/-- Modelled from the spec's words for comparison with
`derive_aes_key`: the spec renders the digest as *lowercase*
32-character hex and takes the ASCII of the first 16 hex characters. -/
def derive_aes_key_spec_lowercase (password nonce : List Nat) : List Nat :=
  (toHexLower (md5 (nonce ++ [45] ++ password))).take 16

/-! ## Credential hashing — `MD5::to_hex_upper_truncated`,
src/utils/md5.cpp:54-66, and `Authenticator::send_modern_login`,
src/client/auth.cpp:229-254 -/

/-- `MD5::to_hex_upper_truncated`: uppercase hex of the digest,
resized to 31 characters when longer. -/
def to_hex_upper_truncated (digest : List Nat) : List Nat :=
  let result := toHexUpper digest
  if result.length > 31 then result.take 31 else result

/-- The `LoginUser` `userName` field built by
`Authenticator::send_modern_login`:
`MD5::to_hex_upper_truncated(MD5::hash(username + nonce))`. -/
def hashed_user_name (username nonce : List Nat) : List Nat :=
  to_hex_upper_truncated (md5 (username ++ nonce))

/-! ## AES-128-CFB128 — `BcCrypto::aes_encrypt` / `aes_decrypt`,
src/protocol/bc_crypto.cpp:200-250

Both calls reset the OpenSSL cipher context to the fixed IV
(`reset_enc()` / `reset_dec()` at the top of each call), run CFB128
with padding disabled, and return exactly `len` bytes.  The AES block
function is OpenSSL's; it enters the model as an abstract
`E : List Nat → List Nat` standing for AES-128 block encryption under
the installed key, assumed to emit 16 bytes.  CFB128 itself (keystream
= `E` of the previous ciphertext block, starting from the IV) is
embedded concretely below, processing the buffer in 16-byte segments. -/

/-- ASCII bytes of the fixed IV `"0123456789abcdef"`,
src/protocol/bc_crypto.h:15. -/
def AES_IV : List Nat := asciiBytes "0123456789abcdef"

/-- Split a buffer into 16-byte segments (fuel-driven so that the
kernel can evaluate it; `chunk16` supplies the fuel). -/
def chunk16Fuel : Nat → List Nat → List (List Nat)
  | 0, _ => []
  | _, [] => []
  | fuel + 1, x :: xs => ((x :: xs).take 16) :: chunk16Fuel fuel (xs.drop 15)

/-- Split a buffer into its 16-byte CFB segments (the last may be short). -/
def chunk16 (l : List Nat) : List (List Nat) := chunk16Fuel l.length l

/-- CFB128 encryption over segments: each ciphertext segment is the
plaintext XOR `E` of the feedback register, and becomes the next
feedback register. -/
def cfbEncChunks (E : List Nat → List Nat) (reg : List Nat) :
    List (List Nat) → List (List Nat)
  | [] => []
  | b :: bs =>
    let c := zipXor b (E reg)
    c :: cfbEncChunks E c bs

/-- CFB128 decryption over segments: each plaintext segment is the
ciphertext XOR `E` of the feedback register; the *ciphertext* segment
becomes the next feedback register. -/
def cfbDecChunks (E : List Nat → List Nat) (reg : List Nat) :
    List (List Nat) → List (List Nat)
  | [] => []
  | b :: bs => zipXor b (E reg) :: cfbDecChunks E b bs

/-- `BcCrypto::aes_encrypt`: reset to the fixed IV, then CFB128-encrypt
the whole buffer (padding disabled, output length = input length). -/
def aes_encrypt (E : List Nat → List Nat) (p : List Nat) : List Nat :=
  (cfbEncChunks E AES_IV (chunk16 p)).flatten

/-- `BcCrypto::aes_decrypt`: reset to the fixed IV, then CFB128-decrypt
the whole buffer. -/
def aes_decrypt (E : List Nat → List Nat) (c : List Nat) : List Nat :=
  (cfbDecChunks E AES_IV (chunk16 c)).flatten

/-! ## Cipher dispatch — `BcCrypto::encrypt` / `decrypt`,
src/protocol/bc_crypto.cpp:154-182 -/

/-- The transport's cipher state (`EncryptionType` plus, for the AES
modes, the keyed block function). -/
inductive CipherState where
  | unencrypted : CipherState
  | bcXor : CipherState
  | aes (E : List Nat → List Nat) : CipherState
  | fullAes (E : List Nat → List Nat) : CipherState

/-- `crypto_.type() == EncryptionType::Unencrypted`. -/
def CipherState.isUnencrypted : CipherState → Bool
  | .unencrypted => true
  | _ => false

/-- `crypto_.type() == EncryptionType::FullAes`. -/
def CipherState.isFullAes : CipherState → Bool
  | .fullAes _ => true
  | _ => false

/-- `BcCrypto::encrypt`: identity, BcXor with the caller's offset, or
AES (offset ignored). -/
def cryptoEncrypt : CipherState → Nat → List Nat → List Nat
  | .unencrypted, _, d => d
  | .bcXor, off, d => bc_encrypt_decrypt off d
  | .aes E, _, d => aes_encrypt E d
  | .fullAes E, _, d => aes_encrypt E d

/-- `BcCrypto::decrypt`: identity, BcXor with the caller's offset, or
AES (offset ignored). -/
def cryptoDecrypt : CipherState → Nat → List Nat → List Nat
  | .unencrypted, _, d => d
  | .bcXor, off, d => bc_encrypt_decrypt off d
  | .aes E, _, d => aes_decrypt E d
  | .fullAes E, _, d => aes_decrypt E d

/-! ## Message header — `BcHeader` / `BcMessage`,
src/protocol/bc_header.h and src/protocol/bc_header.cpp -/

/-- `BcHeader` (src/protocol/bc_header.h:71-80); integer fields carry
their wire width as `Nat` values below the respective bound. -/
structure BcHeader where
  magic : Nat := 0x0abcdef0
  msg_id : Nat := 0
  body_len : Nat := 0
  channel_id : Nat := 0
  stream_type : Nat := 0
  msg_num : Nat := 0
  response_code : Nat := 0
  msg_class : Nat := 0x6414
  payload_offset : Option Nat := none
  deriving Repr, DecidableEq

/-- `BcHeader::is_modern_with_offset`: class `0x6414` or `0x0000`. -/
def BcHeader.is_modern_with_offset (h : BcHeader) : Bool :=
  h.msg_class = 0x6414 || h.msg_class = 0x0000

/-- `BcHeader::header_size`: 24 bytes for the modern-24 classes,
20 otherwise. -/
def BcHeader.header_size (h : BcHeader) : Nat :=
  if h.is_modern_with_offset then 24 else 20

/-- Little-endian bytes of a 16-bit word (`write_u16_le`). -/
def u16LeBytes (v : Nat) : List Nat := [v % 256, v / 256 % 256]

/-- `BcHeader::serialize`, src/protocol/bc_header.cpp:36-54. -/
def BcHeader.serialize (h : BcHeader) : List Nat :=
  u32LeBytes h.magic ++ u32LeBytes h.msg_id ++ u32LeBytes h.body_len
    ++ [h.channel_id % 256, h.stream_type % 256]
    ++ u16LeBytes h.msg_num ++ u16LeBytes h.response_code ++ u16LeBytes h.msg_class
    ++ (if h.is_modern_with_offset then u32LeBytes (h.payload_offset.getD 0) else [])

/-- `BcMessage` (src/protocol/bc_header.h:106-128). -/
structure BcMessage where
  header : BcHeader := {}
  extension_data : List Nat := []
  payload_data : List Nat := []
  deriving Repr, DecidableEq

/-- `BcMessage::serialize`: header bytes, then extension, then payload. -/
def BcMessage.serialize (m : BcMessage) : List Nat :=
  m.header.serialize ++ m.extension_data ++ m.payload_data

/-! ## Transport — `Connection`, src/client/connection.cpp

The socket I/O is external; the state the claims are about —
cipher, `send_offset_` / `recv_offset_`, and the sticky
`binary_mode_nums_` set — is modelled explicitly, and the send and
receive paths become pure functions on it. -/

/-- The connection state the send/receive paths read and update
(src/client/connection.h:64-83).  `binary_mode_nums` models the
`std::set<uint16_t>` as a list with membership-checked insertion. -/
structure ConnState where
  cipher : CipherState
  send_offset : Nat := 0
  recv_offset : Nat := 0
  binary_mode_nums : List Nat := []

/-- `std::set::insert` on the binary-mode set. -/
def insertNum (s : List Nat) (n : Nat) : List Nat :=
  if n ∈ s then s else n :: s

/-- `Connection::send_message` (src/client/connection.cpp:118-153)
with the socket write abstracted away: serialize, encrypt the body
region (everything after the header) with
`crypto_.encrypt(msg.header.channel_id, body)` when the cipher is not
Unencrypted, and advance `send_offset_` by the body size (`uint32_t`
wrap-around). -/
def send_message (st : ConnState) (msg : BcMessage) : List Nat × ConnState :=
  let data := msg.serialize
  let header_size := msg.header.header_size
  let wire :=
    if data.length > header_size && !st.cipher.isUnencrypted then
      data.take header_size
        ++ cryptoEncrypt st.cipher msg.header.channel_id (data.drop header_size)
    else data
  (wire, { st with send_offset := (st.send_offset + (data.length - header_size)) % 4294967296 })

/-- `std::string::find(pat)`: index of the first occurrence of `pat`
in `hay`, or `none` for `npos`. -/
def findSubstr (hay pat : List Nat) : Option Nat :=
  (List.range (hay.length + 1)).find? (fun i => pat.isPrefixOf (hay.drop i))

/-- The `std::stoul` call on the `encryptLen` text, followed by the
`static_cast<uint32_t>`: skip leading spaces, read decimal digits,
reduce mod `2 ^ 32`.  A text with no leading digits makes `std::stoul`
throw; that is modelled as `none` (no `encryptLen` recorded). -/
def stoulU32 (l : List Nat) : Option Nat :=
  let ds := (l.dropWhile (fun c => c = 32)).takeWhile (fun c => 48 ≤ c && c ≤ 57)
  if ds = [] then none
  else some ((ds.foldl (fun a c => a * 10 + (c - 48)) 0) % 4294967296)

/-- ASCII bytes of `"<binaryData>1</binaryData>"`. -/
def binaryDataTag : List Nat := asciiBytes "<binaryData>1</binaryData>"

/-- `ext_str.find("<binaryData>1</binaryData>") != npos` on the
decrypted extension text. -/
def hasBinaryData1 (ext : List Nat) : Bool := (findSubstr ext binaryDataTag).isSome

/-- The `encryptLen` extraction of src/client/connection.cpp:251-257:
find `"<encryptLen>"` and `"</encryptLen>"`, take the text between
them (`substr(enc_start, enc_end - enc_start)`, running to the end of
the string when the closing tag sits before the opening one, as the
`size_t` subtraction would), and parse it with `std::stoul`. -/
def parseEncryptLen (ext : List Nat) : Option Nat :=
  match findSubstr ext (asciiBytes "<encryptLen>"),
        findSubstr ext (asciiBytes "</encryptLen>") with
  | some s, some e =>
    let s' := s + 12
    stoulU32 (if s' ≤ e then (ext.drop s').take (e - s') else ext.drop s')
  | _, _ => none

/-- The body-processing half of `Connection::receive_message`
(src/client/connection.cpp:212-341): given the parsed header and the
`body_len` bytes that followed it, build the `BcMessage` (splitting
off and decrypting the extension, selectively decrypting the payload)
and update the sticky binary-mode set and `recv_offset_`. -/
def processBody (st : ConnState) (header : BcHeader) (body : List Nat) :
    BcMessage × ConnState :=
  let recv_offset' := (st.recv_offset + header.body_len) % 4294967296
  if header.body_len = 0 then
    ({ header := header }, { st with recv_offset := recv_offset' })
  else
    match header.payload_offset with
    | some offset =>
      if offset > 0 then
        if offset ≤ body.length then
          let extension_raw := body.take offset
          let payload_raw := body.drop offset
          let extension_data :=
            if !st.cipher.isUnencrypted && extension_raw ≠ [] then
              cryptoDecrypt st.cipher header.channel_id extension_raw
            else extension_raw
          let in_binary_from_extension :=
            extension_raw ≠ [] && hasBinaryData1 extension_data
          let nums :=
            if in_binary_from_extension then insertNum st.binary_mode_nums header.msg_num
            else st.binary_mode_nums
          let encrypt_len :=
            if extension_raw ≠ [] then parseEncryptLen extension_data else none
          let is_binary := in_binary_from_extension || header.msg_num ∈ nums
          let payload_data :=
            if st.cipher.isFullAes && is_binary
                && encrypt_len.elim false (fun n => decide (0 < n)) then
              let n := encrypt_len.getD 0
              if n < payload_raw.length then
                cryptoDecrypt st.cipher header.channel_id (payload_raw.take n)
                  ++ payload_raw.drop n
              else cryptoDecrypt st.cipher header.channel_id payload_raw
            else if st.cipher.isFullAes && !is_binary then
              cryptoDecrypt st.cipher header.channel_id payload_raw
            else if !st.cipher.isUnencrypted && !is_binary then
              cryptoDecrypt st.cipher header.channel_id payload_raw
            else payload_raw
          ({ header := header, extension_data := extension_data,
             payload_data := payload_data },
           { st with binary_mode_nums := nums, recv_offset := recv_offset' })
        else
          let payload_data :=
            if !st.cipher.isUnencrypted then
              cryptoDecrypt st.cipher header.channel_id body
            else body
          ({ header := header, payload_data := payload_data },
           { st with recv_offset := recv_offset' })
      else
        let is_binary := header.msg_num ∈ st.binary_mode_nums
        let is_video_msg := header.msg_id = 3 || header.msg_id = 4
        let payload_data :=
          if !st.cipher.isUnencrypted && !is_binary && !is_video_msg then
            cryptoDecrypt st.cipher header.channel_id body
          else body
        ({ header := header, payload_data := payload_data },
         { st with recv_offset := recv_offset' })
    | none =>
      let is_binary := header.msg_num ∈ st.binary_mode_nums
      let is_video_msg := header.msg_id = 3 || header.msg_id = 4
      let payload_data :=
        if !st.cipher.isUnencrypted && !is_binary && !is_video_msg then
          cryptoDecrypt st.cipher header.channel_id body
        else body
      ({ header := header, payload_data := payload_data },
       { st with recv_offset := recv_offset' })

/-! ## BcMedia parser — `BcMediaParser`, src/protocol/bc_media.cpp -/

/-- `read_u32_le(data + i)` on a buffer, out-of-range bytes reading
as 0 (every in-bounds use in the parser is guarded by a length check). -/
def read_u32_le (l : List Nat) (i : Nat) : Nat :=
  l.getD i 0 + 256 * l.getD (i + 1) 0 + 65536 * l.getD (i + 2) 0
    + 16777216 * l.getD (i + 3) 0

/-- `read_u16_le(data + i)` on a buffer. -/
def read_u16_le (l : List Nat) (i : Nat) : Nat :=
  l.getD i 0 + 256 * l.getD (i + 1) 0

/-- `VideoCodec` (src/protocol/bc_media.h:24-27). -/
inductive VideoCodec where
  | H264 : VideoCodec
  | H265 : VideoCodec
  deriving Repr, DecidableEq

/-- `parse_video_type`: the 4 ASCII bytes `"H264"`/`"H265"`, with an
H264 default for anything else (src/protocol/bc_media.cpp:21-29). -/
def parse_video_type (data : List Nat) : VideoCodec :=
  if data.getD 0 0 = 72 ∧ data.getD 1 0 = 50 ∧ data.getD 2 0 = 54 then
    if data.getD 3 0 = 52 then .H264
    else if data.getD 3 0 = 53 then .H265
    else .H264
  else .H264

/-- `calculate_padding`: zero-padding to the next multiple of
`BCMEDIA_PAD_SIZE = 8` (src/protocol/bc_media.cpp:31-34). -/
def calculate_padding (size : Nat) : Nat :=
  if size % 8 = 0 then 0 else 8 - size % 8

/-- `BcMediaInfo` (src/protocol/bc_media.h:30-46). -/
structure BcMediaInfo where
  video_width : Nat := 0
  video_height : Nat := 0
  fps : Nat := 0
  start_year : Nat := 0
  start_month : Nat := 0
  start_day : Nat := 0
  start_hour : Nat := 0
  start_min : Nat := 0
  start_seconds : Nat := 0
  end_year : Nat := 0
  end_month : Nat := 0
  end_day : Nat := 0
  end_hour : Nat := 0
  end_min : Nat := 0
  end_seconds : Nat := 0
  deriving Repr, DecidableEq

/-- `BcMediaIFrame` (src/protocol/bc_media.h:49-54). -/
structure BcMediaIFrame where
  codec : VideoCodec := .H264
  microseconds : Nat := 0
  posix_time : Option Nat := none
  data : List Nat := []
  deriving Repr, DecidableEq

/-- `BcMediaPFrame` (src/protocol/bc_media.h:57-61). -/
structure BcMediaPFrame where
  codec : VideoCodec := .H264
  microseconds : Nat := 0
  data : List Nat := []
  deriving Repr, DecidableEq

/-- `BcMediaAac` (src/protocol/bc_media.h:64-69). -/
structure BcMediaAac where
  data : List Nat := []
  deriving Repr, DecidableEq

/-- `BcMediaAdpcm` (src/protocol/bc_media.h:72-80). -/
structure BcMediaAdpcm where
  data : List Nat := []
  deriving Repr, DecidableEq

/-- `BcMediaFrame`, the variant of the five record kinds. -/
inductive BcMediaFrame where
  | info : BcMediaInfo → BcMediaFrame
  | iframe : BcMediaIFrame → BcMediaFrame
  | pframe : BcMediaPFrame → BcMediaFrame
  | aac : BcMediaAac → BcMediaFrame
  | adpcm : BcMediaAdpcm → BcMediaFrame
  deriving Repr, DecidableEq

/-- `BcMediaParser::parse_info` (src/protocol/bc_media.cpp:118-152):
32 bytes after the magic; the `header_size != 32` case only warns. -/
def parse_info (data : List Nat) : Option (BcMediaInfo × Nat) :=
  if data.length < 32 then none
  else some
    ({ video_width := read_u32_le data 4
       video_height := read_u32_le data 8
       fps := data.getD 13 0
       start_year := data.getD 14 0, start_month := data.getD 15 0
       start_day := data.getD 16 0, start_hour := data.getD 17 0
       start_min := data.getD 18 0, start_seconds := data.getD 19 0
       end_year := data.getD 20 0, end_month := data.getD 21 0
       end_day := data.getD 22 0, end_hour := data.getD 23 0
       end_min := data.getD 24 0, end_seconds := data.getD 25 0 }, 32)

/-- `BcMediaParser::parse_iframe` (src/protocol/bc_media.cpp:154-191).
The additional header is skipped (and the POSIX time read) only when
`additional_header_size ≥ 4`. -/
def parse_iframe (data : List Nat) : Option (BcMediaIFrame × Nat) :=
  if data.length < 20 then none
  else
    let codec := parse_video_type data
    let payload_size := read_u32_le data 4
    let additional_header := read_u32_le data 8
    let microseconds := read_u32_le data 12
    if 4 ≤ additional_header then
      if data.length < 24 then none
      else
        let header_consumed := 20 + additional_header
        let total_size := header_consumed + payload_size + calculate_padding payload_size
        if data.length < total_size then none
        else some
          ({ codec := codec, microseconds := microseconds
             posix_time := some (read_u32_le data 20)
             data := (data.drop header_consumed).take payload_size }, total_size)
    else
      let total_size := 20 + payload_size + calculate_padding payload_size
      if data.length < total_size then none
      else some
        ({ codec := codec, microseconds := microseconds, posix_time := none
           data := (data.drop 20).take payload_size }, total_size)

/-- `BcMediaParser::parse_pframe` (src/protocol/bc_media.cpp:193-219).
The additional header is always skipped; there is no POSIX time. -/
def parse_pframe (data : List Nat) : Option (BcMediaPFrame × Nat) :=
  if data.length < 20 then none
  else
    let codec := parse_video_type data
    let payload_size := read_u32_le data 4
    let additional_header := read_u32_le data 8
    let microseconds := read_u32_le data 12
    let header_consumed := 20 + additional_header
    let total_size := header_consumed + payload_size + calculate_padding payload_size
    if data.length < total_size then none
    else some
      ({ codec := codec, microseconds := microseconds
         data := (data.drop header_consumed).take payload_size }, total_size)

/-- `BcMediaParser::parse_aac` (src/protocol/bc_media.cpp:221-240). -/
def parse_aac (data : List Nat) : Option (BcMediaAac × Nat) :=
  if data.length < 4 then none
  else
    let payload_size := read_u16_le data 0
    let total_size := 4 + payload_size + calculate_padding payload_size
    if data.length < total_size then none
    else some ({ data := (data.drop 4).take payload_size }, total_size)

/-- `BcMediaParser::parse_adpcm` (src/protocol/bc_media.cpp:242-259).
The C++ builds the sample data with
`assign(data + 8, data + 4 + payload_size)`; `listSlice data 8
(4 + payload_size)` mirrors that iterator range faithfully only when
`8 ≤ 4 + payload_size` — for `payload_size < 4` the C++ range has its
begin past its end. -/
def parse_adpcm (data : List Nat) : Option (BcMediaAdpcm × Nat) :=
  if data.length < 8 then none
  else
    let payload_size := read_u16_le data 0
    if data.length < 4 + payload_size then none
    else some ({ data := listSlice data 8 (4 + payload_size) }, 4 + payload_size)

/-- `BcMediaParser::parse` (src/protocol/bc_media.cpp:83-116):
dispatch on the little-endian magic, delegate to the record parser on
`data + 4`, and add the 4 magic bytes to the consumed count. -/
def bcMediaParse (data : List Nat) : Option (BcMediaFrame × Nat) :=
  if data.length < 4 then none
  else
    let magic := read_u32_le data 0
    if magic = 0x31303031 ∨ magic = 0x32303031 then
      (parse_info (data.drop 4)).map (fun r => (.info r.1, r.2 + 4))
    else if 0x63643030 ≤ magic ∧ magic ≤ 0x63643039 then
      (parse_iframe (data.drop 4)).map (fun r => (.iframe r.1, r.2 + 4))
    else if 0x63643130 ≤ magic ∧ magic ≤ 0x63643139 then
      (parse_pframe (data.drop 4)).map (fun r => (.pframe r.1, r.2 + 4))
    else if magic = 0x62773530 then
      (parse_aac (data.drop 4)).map (fun r => (.aac r.1, r.2 + 4))
    else if magic = 0x62773130 then
      (parse_adpcm (data.drop 4)).map (fun r => (.adpcm r.1, r.2 + 4))
    else none

/-! ## General helper lemmas -/

/-- Reading a prefix of a list element-wise by `getD` is `take`. -/
theorem map_range_getD_eq_take (l : List Nat) (n : Nat) (h : n ≤ l.length) :
    (List.range n).map (fun i => l.getD i 0) = l.take n := by
  induction n with
  | zero => simp
  | succ m ih =>
    rw [List.range_succ, List.map_append, ih (Nat.le_of_succ_le h),
      List.take_succ]
    simp [List.getD_eq_getElem?_getD, List.getElem?_eq_getElem (Nat.lt_of_succ_le h)]

/-- `getD` of a `map` over `range` below the bound. -/
theorem getD_map_range (f : Nat → Nat) {n i : Nat} (h : i < n) :
    ((List.range n).map f).getD i 0 = f i := by
  rw [List.getD_eq_getElem?_getD, List.getElem?_map, List.getElem?_range h]
  rfl

/-- The MD5 digest has 16 bytes. -/
theorem md5_length (msg : List Nat) : (md5 msg).length = 16 := by
  unfold md5
  obtain ⟨a, b, c, d⟩ := (md5Blocks (md5Pad msg)).foldl
    (fun st blk => md5Compress (md5Words blk) st)
    (0x67452301, 0xefcdab89, 0x98badcfe, 0x10325476)
  simp [u32LeBytes]

/-- Uppercase hex rendering doubles the length. -/
theorem toHexUpper_length (l : List Nat) : (toHexUpper l).length = 2 * l.length := by
  induction l with
  | nil => rfl
  | cons x xs ih =>
    simp only [toHexUpper] at ih ⊢
    simp only [List.map_cons, List.flatten_cons, List.length_append, ih,
      List.length_cons, List.length_nil, List.length_map]
    omega

/-! ## C1 — key derivation uses uppercase, not lowercase, hex -/

set_option maxRecDepth 20000 in
/-- C1 (counterexample): the claim says the AES key is the ASCII of the
first 16 *lowercase* hex characters of `MD5(nonce + "-" + password)`;
at `password = "password123"`, `nonce = "ABCDEF"` the code's key (from
`std::uppercase` hex, src/protocol/bc_crypto.cpp:130) differs from that. -/
theorem derive_aes_key_not_lowercase :
    derive_aes_key (asciiBytes "password123") (asciiBytes "ABCDEF")
      ≠ derive_aes_key_spec_lowercase (asciiBytes "password123") (asciiBytes "ABCDEF") := by
  decide

set_option maxRecDepth 20000 in
/-- C1 (amended): the AES key is the ASCII of the first 16 *uppercase*
hex characters of `MD5(nonce + "-" + password)`; for
`password = "password123"`, `nonce = "ABCDEF"` it is the ASCII of
`"3A60C1D1826A065F"` (the first 16 uppercase-hex characters of
`MD5("ABCDEF-password123") = 3a60c1d1826a065f804de3f15684f3b0`). -/
theorem derive_aes_key_uppercase :
    (∀ password nonce, derive_aes_key password nonce
        = (toHexUpper (md5 (nonce ++ [45] ++ password))).take 16)
    ∧ derive_aes_key (asciiBytes "password123") (asciiBytes "ABCDEF")
        = asciiBytes "3A60C1D1826A065F" := by
  constructor
  · intro password nonce
    unfold derive_aes_key
    exact map_range_getD_eq_take _ 16
      (by rw [toHexUpper_length, md5_length]; omega)
  · decide

/-! ## C9 — hashed-credential digest: uppercase MD5 hex truncated to 31 -/

set_option maxRecDepth 20000 in
/-- C9: the hashed-credential formatter emits the uppercase hex of the
16-byte MD5 digest truncated to 31 characters, so the LoginUser
`userName` is `UPPER(HEX(MD5(username ++ nonce)))[:31]`, a 31-character
string; for `username = "admin"`, `nonce = "1234"` it is
`"C93CCD78B2076528346216B3B2F701E"`. -/
theorem hashed_user_name_spec :
    (∀ username nonce,
        hashed_user_name username nonce
          = (toHexUpper (md5 (username ++ nonce))).take 31
        ∧ (hashed_user_name username nonce).length = 31)
    ∧ hashed_user_name (asciiBytes "admin") (asciiBytes "1234")
        = asciiBytes "C93CCD78B2076528346216B3B2F701E" := by
  constructor
  · intro username nonce
    have hlen : (toHexUpper (md5 (username ++ nonce))).length = 32 := by
      rw [toHexUpper_length, md5_length]
    unfold hashed_user_name to_hex_upper_truncated
    rw [if_pos (by omega)]
    exact ⟨rfl, by rw [List.length_take, hlen]; omega⟩
  · decide

/-! ## C6 — BcXor pointwise formula and involution -/

/-- XOR cancellation used by the BcXor involution. -/
theorem xor_xor_xor_cancel (x k o : Nat) : x ^^^ k ^^^ o ^^^ k ^^^ o = x := by
  have hc : x ^^^ k ^^^ o ^^^ k = x ^^^ k ^^^ k ^^^ o := by
    rw [Nat.xor_assoc (x ^^^ k), Nat.xor_assoc (x ^^^ k), Nat.xor_comm o k]
  rw [hc, Nat.xor_cancel_right, Nat.xor_cancel_right]

/-- C6: BcXor byte `i` is
`in[i] ^ KEY[(offset + i) % 8] ^ (offset & 0xFF)` with the fixed key
`{0x1F, 0x2D, 0x3C, 0x4B, 0x5A, 0x69, 0x78, 0xFF}` — the offset byte is
`offset` itself, not `offset + i` — and the transform is an involution
at every offset. -/
theorem bc_encrypt_decrypt_spec :
    (∀ offset data i, i < data.length →
        (bc_encrypt_decrypt offset data).getD i 0
          = data.getD i 0
              ^^^ ([0x1F, 0x2D, 0x3C, 0x4B, 0x5A, 0x69, 0x78, 0xFF].getD
                    ((offset + i) % 8) 0)
              ^^^ (offset % 256))
    ∧ ∀ offset data, bc_encrypt_decrypt offset (bc_encrypt_decrypt offset data) = data := by
  constructor
  · intro offset data i h
    unfold bc_encrypt_decrypt
    rw [getD_map_range _ h]
    rfl
  · intro offset data
    have hlen : ∀ l : List Nat, (bc_encrypt_decrypt offset l).length = l.length := by
      intro l; simp [bc_encrypt_decrypt]
    apply List.ext_getElem (by rw [hlen, hlen])
    intro i h1 h2
    have hi : i < data.length := by rwa [hlen, hlen] at h1
    have hgd : ∀ (l : List Nat) (j : Nat) (hj : j < l.length),
        l[j] = l.getD j 0 := by
      intro l j hj
      rw [List.getD_eq_getElem?_getD, List.getElem?_eq_getElem hj]
      rfl
    rw [hgd _ _ h1, hgd _ _ h2]
    unfold bc_encrypt_decrypt
    rw [getD_map_range _ (by rwa [hlen] at h1)]
    rw [getD_map_range _ hi]
    exact xor_xor_xor_cancel _ _ _

/-- C6 witness: the pointwise formula at `offset = 3`, `data = [17, 34]`,
`i = 1`, and the involution at `offset = 9`, `data = [1, 2, 250]`. -/
theorem bc_encrypt_decrypt_spec_witness :
    ((bc_encrypt_decrypt 3 [17, 34]).getD 1 0
        = ([17, 34] : List Nat).getD 1 0
            ^^^ ([0x1F, 0x2D, 0x3C, 0x4B, 0x5A, 0x69, 0x78, 0xFF].getD ((3 + 1) % 8) 0)
            ^^^ (3 % 256))
    ∧ bc_encrypt_decrypt 9 (bc_encrypt_decrypt 9 [1, 2, 250]) = [1, 2, 250] :=
  ⟨bc_encrypt_decrypt_spec.1 3 [17, 34] 1 (by decide),
   bc_encrypt_decrypt_spec.2 9 [1, 2, 250]⟩

/-! ## C7 — AES-CFB round trip with per-message IV reset -/

/-- `zipXor` lengths. -/
theorem zipXor_length (a b : List Nat) : (zipXor a b).length = min a.length b.length :=
  List.length_zipWith _ a b

/-- XORing twice with the same (long enough) keystream is the identity. -/
theorem zipXor_zipXor_cancel :
    ∀ (a k : List Nat), a.length ≤ k.length → zipXor (zipXor a k) k = a := by
  intro a
  induction a with
  | nil => intro k _; simp [zipXor]
  | cons x xs ih =>
    intro k hk
    match k with
    | [] => simp at hk
    | y :: ys =>
      simp only [zipXor, List.zipWith_cons_cons] at *
      rw [Nat.xor_cancel_right, ih ys (by simpa using hk)]

/-- Well-formed CFB segment sequences: every segment has 16 bytes
except a final shorter—but nonempty—one. -/
inductive Chunks16 : List (List Nat) → Prop where
  | nil : Chunks16 []
  | single (c : List Nat) : 0 < c.length → c.length ≤ 16 → Chunks16 [c]
  | cons (c d : List Nat) (ds : List (List Nat)) :
      c.length = 16 → Chunks16 (d :: ds) → Chunks16 (c :: d :: ds)

/-- Every segment of a well-formed sequence has at most 16 bytes. -/
theorem Chunks16.le16 {cs : List (List Nat)} (h : Chunks16 cs) :
    ∀ c ∈ cs, c.length ≤ 16 := by
  induction h with
  | nil => intro c hc; simp at hc
  | single c h1 h2 =>
    intro e he
    simp only [List.mem_singleton] at he
    subst he; exact h2
  | cons c d ds h1 h2 ih =>
    intro e he
    rcases List.mem_cons.mp he with he | he
    · subst he; omega
    · exact ih e he

/-- The head of a nonempty well-formed sequence is nonempty. -/
theorem Chunks16.head_pos {d : List Nat} {ds : List (List Nat)}
    (h : Chunks16 (d :: ds)) : 0 < d.length := by
  cases h with
  | single _ h1 h2 => exact h1
  | cons _ _ _ h1 _ => omega

/-- `chunk16Fuel` ignores surplus fuel. -/
theorem chunk16Fuel_congr :
    ∀ (f₁ f₂ : Nat) (l : List Nat), l.length ≤ f₁ → l.length ≤ f₂ →
      chunk16Fuel f₁ l = chunk16Fuel f₂ l := by
  intro f₁
  induction f₁ with
  | zero =>
    intro f₂ l h₁ _
    rw [List.length_eq_zero.mp (Nat.le_zero.mp h₁)]
    cases f₂ <;> rfl
  | succ f ih =>
    intro f₂ l h₁ h₂
    match l with
    | [] => cases f₂ <;> rfl
    | x :: xs =>
      match f₂ with
      | 0 => simp at h₂
      | g + 1 =>
        simp only [chunk16Fuel]
        rw [ih g (xs.drop 15) (by simp at h₁ ⊢; omega) (by simp at h₂ ⊢; omega)]

/-- Joining the 16-byte segments gives back the buffer. -/
theorem chunk16Fuel_flatten :
    ∀ (fuel : Nat) (l : List Nat), l.length ≤ fuel →
      (chunk16Fuel fuel l).flatten = l := by
  intro fuel
  induction fuel with
  | zero =>
    intro l h
    rw [List.length_eq_zero.mp (Nat.le_zero.mp h)]
    rfl
  | succ f ih =>
    intro l h
    match l with
    | [] => rfl
    | x :: xs =>
      simp only [chunk16Fuel, List.flatten_cons]
      have hdrop : xs.drop 15 = (x :: xs).drop 16 := rfl
      rw [hdrop, ih ((x :: xs).drop 16) (by simp at h ⊢; omega)]
      exact List.take_append_drop 16 (x :: xs)

/-- `chunk16` produces a well-formed segment sequence. -/
theorem chunk16Fuel_chunks16 :
    ∀ (fuel : Nat) (l : List Nat), l.length ≤ fuel →
      Chunks16 (chunk16Fuel fuel l) := by
  intro fuel
  induction fuel with
  | zero =>
    intro l h
    rw [List.length_eq_zero.mp (Nat.le_zero.mp h)]
    exact .nil
  | succ f ih =>
    intro l h
    match l with
    | [] => exact .nil
    | x :: xs =>
      simp only [chunk16Fuel]
      have hdrop : xs.drop 15 = (x :: xs).drop 16 := rfl
      rw [hdrop]
      have hrest := ih ((x :: xs).drop 16) (by simp at h ⊢; omega)
      cases hr : chunk16Fuel f ((x :: xs).drop 16) with
      | nil =>
        exact .single _ (by simp) (by simp [List.length_take])
      | cons c cs =>
        rw [hr] at hrest
        have hlong : 16 ≤ (x :: xs).length := by
          by_contra hlt
          have hnil : (x :: xs).drop 16 = [] := List.drop_eq_nil_of_le (by omega)
          rw [hnil] at hr
          cases f <;> simp [chunk16Fuel] at hr
        have hlen16 : ((x :: xs).take 16).length = 16 := by
          simp only [List.length_take, List.length_cons]
          simp only [List.length_cons] at hlong
          omega
        exact .cons _ c cs hlen16 hrest

/-- Re-segmenting the concatenation of a well-formed segment sequence
gives back the same sequence. -/
theorem chunk16Fuel_flatten_of_chunks16 {cs : List (List Nat)}
    (h : Chunks16 cs) :
    ∀ fuel, cs.flatten.length ≤ fuel → chunk16Fuel fuel cs.flatten = cs := by
  induction h with
  | nil => intro fuel _; cases fuel <;> rfl
  | single c h1 h2 =>
    intro fuel hfuel
    have hflat : ([c] : List (List Nat)).flatten = c := by simp
    rw [hflat] at hfuel ⊢
    match c, h1 with
    | x :: xs, _ =>
      match fuel, (by simpa [hflat] using hfuel : (x :: xs).length ≤ fuel) with
      | f + 1, _ =>
        simp only [chunk16Fuel]
        rw [List.take_of_length_le h2]
        have hdrop : xs.drop 15 = (x :: xs).drop 16 := rfl
        rw [hdrop, List.drop_eq_nil_of_le (by simp at h2 ⊢; omega)]
        cases f <;> rfl
  | cons c d ds h1 h2 ih =>
    intro fuel hfuel
    have hdpos : 0 < d.length := Chunks16.head_pos h2
    have hjpos : 0 < ((d :: ds).flatten).length := by
      simp only [List.flatten_cons, List.length_append]
      omega
    have hflat : ((c :: d :: ds).flatten) = c ++ (d :: ds).flatten := by simp
    rw [hflat] at hfuel ⊢
    have hlen : (c ++ (d :: ds).flatten).length
        = 16 + ((d :: ds).flatten).length := by
      simp [h1]
    have hfuel17 : 17 ≤ fuel := by omega
    match c, h1 with
    | x :: xs, h1 =>
      match fuel, hfuel17 with
      | f + 1, _ =>
        have hcons : (x :: xs) ++ (d :: ds).flatten
            = x :: (xs ++ (d :: ds).flatten) := rfl
        rw [hcons]
        simp only [chunk16Fuel]
        rw [← hcons]
        have htake : ((x :: xs) ++ (d :: ds).flatten).take 16 = x :: xs := by
          rw [List.take_append_of_le_length (by omega),
            List.take_of_length_le (by omega)]
        have hdropeq : (xs ++ (d :: ds).flatten).drop 15
            = ((x :: xs) ++ (d :: ds).flatten).drop 16 := rfl
        have hdrop : ((x :: xs) ++ (d :: ds).flatten).drop 16
            = (d :: ds).flatten := by
          rw [List.drop_append_of_le_length (by omega),
            List.drop_eq_nil_of_le (by omega)]
          rfl
        rw [htake, hdropeq, hdrop,
          ih f (by rw [hlen] at hfuel; omega)]

/-- CFB decryption undoes CFB encryption segment-by-segment: the
ciphertext segment an encryptor feeds back is exactly the one the
decryptor feeds back. -/
theorem cfbDecChunks_cfbEncChunks (E : List Nat → List Nat)
    (hE : ∀ b, (E b).length = 16) :
    ∀ (bs : List (List Nat)) (reg : List Nat), (∀ c ∈ bs, c.length ≤ 16) →
      cfbDecChunks E reg (cfbEncChunks E reg bs) = bs := by
  intro bs
  induction bs with
  | nil => intro reg _; rfl
  | cons b bs ih =>
    intro reg hle
    simp only [cfbEncChunks, cfbDecChunks, List.cons.injEq]
    refine ⟨?_, ?_⟩
    · exact zipXor_zipXor_cancel b (E reg)
        (by rw [hE reg]; exact hle b (List.mem_cons_self b bs))
    · exact ih _ (fun c hc => hle c (List.mem_cons_of_mem b hc))

/-- CFB encryption maps each segment to one of the same length. -/
theorem cfbEncChunks_map_length (E : List Nat → List Nat)
    (hE : ∀ b, (E b).length = 16) :
    ∀ (bs : List (List Nat)) (reg : List Nat), (∀ c ∈ bs, c.length ≤ 16) →
      (cfbEncChunks E reg bs).map List.length = bs.map List.length := by
  intro bs
  induction bs with
  | nil => intro reg _; rfl
  | cons b bs ih =>
    intro reg hle
    simp only [cfbEncChunks, List.map_cons, List.cons.injEq]
    refine ⟨?_, ih _ (fun c hc => hle c (List.mem_cons_of_mem b hc))⟩
    rw [zipXor_length, hE reg]
    have := hle b (List.mem_cons_self b bs)
    omega

/-- Well-formedness of a segment sequence only depends on the segment
lengths. -/
theorem chunks16_of_map_length :
    ∀ (ds cs : List (List Nat)), Chunks16 ds →
      cs.map List.length = ds.map List.length → Chunks16 cs := by
  intro ds cs hds
  induction hds generalizing cs with
  | nil =>
    intro hmap
    rw [List.map_eq_nil_iff.mp hmap]
    exact .nil
  | single d h1 h2 =>
    intro hmap
    cases cs with
    | nil => simp at hmap
    | cons c cs2 =>
      cases cs2 with
      | nil =>
        simp only [List.map_cons, List.map_nil, List.cons.injEq, and_true] at hmap
        exact .single c (by omega) (by omega)
      | cons c2 cs3 => simp at hmap
  | cons d e es h1 h2 ih =>
    intro hmap
    cases cs with
    | nil => simp at hmap
    | cons c cs2 =>
      cases cs2 with
      | nil => simp at hmap
      | cons c2 cs3 =>
        simp only [List.map_cons, List.cons.injEq] at hmap
        exact .cons c c2 cs3 (by omega)
          (ih (c2 :: cs3) (by simp only [List.map_cons, hmap.2.1, hmap.2.2]))

/-- C7: for every block cipher `E` producing 16-byte blocks (AES-128
under any 16-byte key) and every plaintext of arbitrary length,
`aes_decrypt (aes_encrypt p) = p` — both calls restart CFB128 from the
fixed ASCII IV `"0123456789abcdef"` — and the ciphertext length equals
the plaintext length (padding disabled). -/
theorem aes_encrypt_decrypt_roundtrip (E : List Nat → List Nat)
    (hE : ∀ b, (E b).length = 16) (p : List Nat) :
    aes_decrypt E (aes_encrypt E p) = p
    ∧ (aes_encrypt E p).length = p.length := by
  have hch : Chunks16 (chunk16 p) := chunk16Fuel_chunks16 p.length p le_rfl
  have hmap := cfbEncChunks_map_length E hE (chunk16 p) AES_IV (Chunks16.le16 hch)
  have hencch : Chunks16 (cfbEncChunks E AES_IV (chunk16 p)) :=
    chunks16_of_map_length _ _ hch hmap
  have hflat : (chunk16 p).flatten = p := chunk16Fuel_flatten p.length p le_rfl
  have hlen : (aes_encrypt E p).length = p.length := by
    unfold aes_encrypt
    rw [List.length_flatten, hmap, ← List.length_flatten, hflat]
  refine ⟨?_, hlen⟩
  unfold aes_decrypt aes_encrypt
  have hc16 : chunk16 ((cfbEncChunks E AES_IV (chunk16 p)).flatten)
      = cfbEncChunks E AES_IV (chunk16 p) :=
    chunk16Fuel_flatten_of_chunks16 hencch _ le_rfl
  rw [hc16, cfbDecChunks_cfbEncChunks E hE (chunk16 p) AES_IV (Chunks16.le16 hch), hflat]

/-- C7 witness: the round trip at a concrete 16-byte-block function and
a 20-byte (non-block-aligned) plaintext. -/
theorem aes_encrypt_decrypt_roundtrip_witness :
    aes_decrypt (fun _ => List.replicate 16 9)
        (aes_encrypt (fun _ => List.replicate 16 9) (List.range 20)) = List.range 20
    ∧ (aes_encrypt (fun _ => List.replicate 16 9) (List.range 20)).length
        = (List.range 20).length :=
  aes_encrypt_decrypt_roundtrip (fun _ => List.replicate 16 9)
    (fun _ => by simp) (List.range 20)

/-! ## C8 — the media parser consumes within bounds and is stable
under appended data -/

/-- Reading a `u32` stays inside the original buffer. -/
theorem read_u32_le_append {d : List Nat} (t : List Nat) {i : Nat}
    (h : i + 4 ≤ d.length) : read_u32_le (d ++ t) i = read_u32_le d i := by
  unfold read_u32_le
  rw [List.getD_append d t 0 i (by omega), List.getD_append d t 0 (i + 1) (by omega),
    List.getD_append d t 0 (i + 2) (by omega), List.getD_append d t 0 (i + 3) (by omega)]

/-- Reading a `u16` stays inside the original buffer. -/
theorem read_u16_le_append {d : List Nat} (t : List Nat) {i : Nat}
    (h : i + 2 ≤ d.length) : read_u16_le (d ++ t) i = read_u16_le d i := by
  unfold read_u16_le
  rw [List.getD_append d t 0 i (by omega), List.getD_append d t 0 (i + 1) (by omega)]

/-- Reading a single byte stays inside the original buffer. -/
theorem getD_append_of_lt {d : List Nat} (t : List Nat) {i : Nat}
    (h : i < d.length) : (d ++ t).getD i 0 = d.getD i 0 :=
  List.getD_append d t 0 i h

/-- An in-bounds `drop`/`take` slice stays inside the original buffer. -/
theorem drop_take_append {d : List Nat} (t : List Nat) {a b : Nat}
    (h : a + b ≤ d.length) : ((d ++ t).drop a).take b = (d.drop a).take b := by
  rw [List.drop_append_of_le_length (by omega),
    List.take_append_of_le_length (by simp only [List.length_drop]; omega)]

/-- The codec bytes stay inside the original buffer. -/
theorem parse_video_type_append {d : List Nat} (t : List Nat)
    (h : 4 ≤ d.length) : parse_video_type (d ++ t) = parse_video_type d := by
  unfold parse_video_type
  rw [getD_append_of_lt t (by omega), getD_append_of_lt t (by omega),
    getD_append_of_lt t (by omega), getD_append_of_lt t (by omega)]

/-- `parse_info` soundness: it consumes 32 bytes it has. -/
theorem parse_info_sound {d : List Nat} {f : BcMediaInfo} {c : Nat}
    (h : parse_info d = some (f, c)) : c = 32 ∧ 32 ≤ d.length := by
  unfold parse_info at h
  split at h
  · exact absurd h (by simp)
  · next hlen =>
    simp only [Option.some.injEq, Prod.mk.injEq] at h
    omega

/-- `parse_info` ignores appended data. -/
theorem parse_info_append {d : List Nat} (t : List Nat) {r : BcMediaInfo × Nat}
    (h : parse_info d = some r) : parse_info (d ++ t) = some r := by
  have hs := parse_info_sound (f := r.1) (c := r.2) (by rwa [← Prod.mk.eta (p := r)] at h)
  unfold parse_info at h ⊢
  rw [if_neg (by simp; omega)]
  rw [if_neg (by omega)] at h
  rw [read_u32_le_append t (by omega), read_u32_le_append t (by omega),
    getD_append_of_lt t (by omega), getD_append_of_lt t (by omega),
    getD_append_of_lt t (by omega), getD_append_of_lt t (by omega),
    getD_append_of_lt t (by omega), getD_append_of_lt t (by omega),
    getD_append_of_lt t (by omega), getD_append_of_lt t (by omega),
    getD_append_of_lt t (by omega), getD_append_of_lt t (by omega),
    getD_append_of_lt t (by omega), getD_append_of_lt t (by omega),
    getD_append_of_lt t (by omega)]
  exact h

/-- `parse_aac` soundness. -/
theorem parse_aac_sound {d : List Nat} {f : BcMediaAac} {c : Nat}
    (h : parse_aac d = some (f, c)) : 0 < c ∧ c ≤ d.length := by
  simp only [parse_aac] at h
  split at h
  · exact absurd h (by simp)
  · split at h
    · exact absurd h (by simp)
    · next h4 hlen =>
      simp only [Option.some.injEq, Prod.mk.injEq] at h
      omega

/-- `parse_aac` ignores appended data. -/
theorem parse_aac_append {d : List Nat} (t : List Nat) {r : BcMediaAac × Nat}
    (h : parse_aac d = some r) : parse_aac (d ++ t) = some r := by
  simp only [parse_aac] at h ⊢
  split at h
  · exact absurd h (by simp)
  · next h4 =>
    split at h
    · exact absurd h (by simp)
    · next hlen =>
      rw [if_neg (by simp only [List.length_append]; omega)]
      rw [read_u16_le_append t (by omega)]
      rw [if_neg (by simp only [List.length_append]; omega)]
      rw [drop_take_append t (by omega)]
      exact h

/-- `parse_adpcm` soundness. -/
theorem parse_adpcm_sound {d : List Nat} {f : BcMediaAdpcm} {c : Nat}
    (h : parse_adpcm d = some (f, c)) : 0 < c ∧ c ≤ d.length := by
  simp only [parse_adpcm] at h
  split at h
  · exact absurd h (by simp)
  · split at h
    · exact absurd h (by simp)
    · next h8 hlen =>
      simp only [Option.some.injEq, Prod.mk.injEq] at h
      omega

/-- `parse_adpcm` ignores appended data. -/
theorem parse_adpcm_append {d : List Nat} (t : List Nat) {r : BcMediaAdpcm × Nat}
    (h : parse_adpcm d = some r) : parse_adpcm (d ++ t) = some r := by
  simp only [parse_adpcm] at h ⊢
  split at h
  · exact absurd h (by simp)
  · next h8 =>
    split at h
    · exact absurd h (by simp)
    · next hlen =>
      rw [if_neg (by simp only [List.length_append]; omega)]
      rw [read_u16_le_append t (by omega)]
      rw [if_neg (by simp only [List.length_append]; omega)]
      unfold listSlice
      rw [drop_take_append t (by omega)]
      unfold listSlice at h
      exact h

/-- `parse_iframe` soundness. -/
theorem parse_iframe_sound {d : List Nat} {f : BcMediaIFrame} {c : Nat}
    (h : parse_iframe d = some (f, c)) : 0 < c ∧ c ≤ d.length := by
  simp only [parse_iframe] at h
  split at h
  · exact absurd h (by simp)
  · split at h
    · split at h
      · exact absurd h (by simp)
      · split at h
        · exact absurd h (by simp)
        · next hlen =>
          simp only [Option.some.injEq, Prod.mk.injEq] at h
          omega
    · split at h
      · exact absurd h (by simp)
      · next hlen =>
        simp only [Option.some.injEq, Prod.mk.injEq] at h
        omega

/-- `parse_iframe` ignores appended data. -/
theorem parse_iframe_append {d : List Nat} (t : List Nat) {r : BcMediaIFrame × Nat}
    (h : parse_iframe d = some r) : parse_iframe (d ++ t) = some r := by
  simp only [parse_iframe] at h ⊢
  split at h
  · exact absurd h (by simp)
  · next h20 =>
    rw [if_neg (by simp only [List.length_append]; omega)]
    rw [read_u32_le_append t (by omega), read_u32_le_append t (i := 4) (by omega),
      read_u32_le_append t (i := 12) (by omega),
      parse_video_type_append t (by omega)]
    split at h
    · next hahs =>
      rw [if_pos hahs]
      split at h
      · exact absurd h (by simp)
      · next h24 =>
        rw [if_neg (by simp only [List.length_append]; omega)]
        rw [read_u32_le_append t (i := 20) (by omega)]
        split at h
        · exact absurd h (by simp)
        · next hlen =>
          rw [if_neg (by simp only [List.length_append]; omega)]
          rw [drop_take_append t (by omega)]
          exact h
    · next hahs =>
      rw [if_neg hahs]
      split at h
      · exact absurd h (by simp)
      · next hlen =>
        rw [if_neg (by simp only [List.length_append]; omega)]
        rw [drop_take_append t (by omega)]
        exact h

/-- `parse_pframe` soundness. -/
theorem parse_pframe_sound {d : List Nat} {f : BcMediaPFrame} {c : Nat}
    (h : parse_pframe d = some (f, c)) : 0 < c ∧ c ≤ d.length := by
  simp only [parse_pframe] at h
  split at h
  · exact absurd h (by simp)
  · split at h
    · exact absurd h (by simp)
    · next h20 hlen =>
      simp only [Option.some.injEq, Prod.mk.injEq] at h
      omega

/-- `parse_pframe` ignores appended data. -/
theorem parse_pframe_append {d : List Nat} (t : List Nat) {r : BcMediaPFrame × Nat}
    (h : parse_pframe d = some r) : parse_pframe (d ++ t) = some r := by
  simp only [parse_pframe] at h ⊢
  split at h
  · exact absurd h (by simp)
  · next h20 =>
    rw [if_neg (by simp only [List.length_append]; omega)]
    rw [read_u32_le_append t (by omega), read_u32_le_append t (i := 4) (by omega),
      read_u32_le_append t (i := 12) (by omega),
      parse_video_type_append t (by omega)]
    split at h
    · exact absurd h (by simp)
    · next hlen =>
      rw [if_neg (by simp only [List.length_append]; omega)]
      rw [drop_take_append t (by omega)]
      exact h

/-- C8: whenever `BcMediaParser::parse` produces a record it consumed
between 1 byte and the whole input, and feeding it the same input with
any suffix appended reproduces exactly the same record and consumed
count — so a caller that buffers more data and re-runs the parser never
sees already-produced output change, and a "need more data" `none`
consumes nothing. -/
theorem bcMediaParse_spec :
    (∀ data frame consumed, bcMediaParse data = some (frame, consumed) →
        0 < consumed ∧ consumed ≤ data.length)
    ∧ ∀ data suffix frame consumed, bcMediaParse data = some (frame, consumed) →
        bcMediaParse (data ++ suffix) = some (frame, consumed) := by
  constructor
  · intro data frame consumed h
    simp only [bcMediaParse] at h
    split at h
    · exact absurd h (by simp)
    · next h4 =>
      split at h
      · cases hx : parse_info (data.drop 4) with
        | none => rw [hx] at h; exact absurd h (by simp)
        | some r =>
          rw [hx] at h
          simp only [Option.map_some', Option.some.injEq, Prod.mk.injEq] at h
          have := parse_info_sound (f := r.1) (c := r.2)
            (by rwa [← Prod.mk.eta (p := r)] at hx)
          simp only [List.length_drop] at this
          omega
      · split at h
        · cases hx : parse_iframe (data.drop 4) with
          | none => rw [hx] at h; exact absurd h (by simp)
          | some r =>
            rw [hx] at h
            simp only [Option.map_some', Option.some.injEq, Prod.mk.injEq] at h
            have := parse_iframe_sound (f := r.1) (c := r.2)
              (by rwa [← Prod.mk.eta (p := r)] at hx)
            simp only [List.length_drop] at this
            omega
        · split at h
          · cases hx : parse_pframe (data.drop 4) with
            | none => rw [hx] at h; exact absurd h (by simp)
            | some r =>
              rw [hx] at h
              simp only [Option.map_some', Option.some.injEq, Prod.mk.injEq] at h
              have := parse_pframe_sound (f := r.1) (c := r.2)
                (by rwa [← Prod.mk.eta (p := r)] at hx)
              simp only [List.length_drop] at this
              omega
          · split at h
            · cases hx : parse_aac (data.drop 4) with
              | none => rw [hx] at h; exact absurd h (by simp)
              | some r =>
                rw [hx] at h
                simp only [Option.map_some', Option.some.injEq, Prod.mk.injEq] at h
                have := parse_aac_sound (f := r.1) (c := r.2)
                  (by rwa [← Prod.mk.eta (p := r)] at hx)
                simp only [List.length_drop] at this
                omega
            · split at h
              · cases hx : parse_adpcm (data.drop 4) with
                | none => rw [hx] at h; exact absurd h (by simp)
                | some r =>
                  rw [hx] at h
                  simp only [Option.map_some', Option.some.injEq, Prod.mk.injEq] at h
                  have := parse_adpcm_sound (f := r.1) (c := r.2)
                    (by rwa [← Prod.mk.eta (p := r)] at hx)
                  simp only [List.length_drop] at this
                  omega
              · exact absurd h (by simp)
  · intro data suffix frame consumed h
    have h4 : ¬ data.length < 4 := by
      intro hlt
      rw [bcMediaParse, if_pos hlt] at h
      exact absurd h (by simp)
    have hdrop : (data ++ suffix).drop 4 = data.drop 4 ++ suffix :=
      List.drop_append_of_le_length (by omega)
    simp only [bcMediaParse, if_neg h4] at h
    simp only [bcMediaParse]
    rw [if_neg (by simp only [List.length_append]; omega),
      read_u32_le_append suffix (by omega), hdrop]
    split at h <;> rename_i hc1
    · rw [if_pos hc1]
      cases hx : parse_info (data.drop 4) with
      | none => rw [hx] at h; exact absurd h (by simp)
      | some r => rw [hx] at h; rw [parse_info_append suffix hx]; exact h
    · rw [if_neg hc1]
      split at h <;> rename_i hc2
      · rw [if_pos hc2]
        cases hx : parse_iframe (data.drop 4) with
        | none => rw [hx] at h; exact absurd h (by simp)
        | some r => rw [hx] at h; rw [parse_iframe_append suffix hx]; exact h
      · rw [if_neg hc2]
        split at h <;> rename_i hc3
        · rw [if_pos hc3]
          cases hx : parse_pframe (data.drop 4) with
          | none => rw [hx] at h; exact absurd h (by simp)
          | some r => rw [hx] at h; rw [parse_pframe_append suffix hx]; exact h
        · rw [if_neg hc3]
          split at h <;> rename_i hc4
          · rw [if_pos hc4]
            cases hx : parse_aac (data.drop 4) with
            | none => rw [hx] at h; exact absurd h (by simp)
            | some r => rw [hx] at h; rw [parse_aac_append suffix hx]; exact h
          · rw [if_neg hc4]
            split at h <;> rename_i hc5
            · rw [if_pos hc5]
              cases hx : parse_adpcm (data.drop 4) with
              | none => rw [hx] at h; exact absurd h (by simp)
              | some r => rw [hx] at h; rw [parse_adpcm_append suffix hx]; exact h
            · exact absurd h (by simp)

/-- C8 witness: a complete 36-byte Info record (magic `"1001"` plus 32
zero bytes) is consumed within bounds, and appending a byte does not
change the parse. -/
theorem bcMediaParse_spec_witness :
    (0 < 36
      ∧ 36 ≤ (([0x31, 0x30, 0x30, 0x31] ++ List.replicate 32 0 : List Nat)).length)
    ∧ bcMediaParse (([0x31, 0x30, 0x30, 0x31] ++ List.replicate 32 0) ++ [7])
        = some (.info {}, 36) :=
  ⟨bcMediaParse_spec.1 ([0x31, 0x30, 0x30, 0x31] ++ List.replicate 32 0)
      (.info {}) 36 (by decide),
   bcMediaParse_spec.2 ([0x31, 0x30, 0x30, 0x31] ++ List.replicate 32 0) [7]
      (.info {}) 36 (by decide)⟩

/-! ## C10 — `parse_adpcm` accepts a record whose data range is
ill-formed -/

/-- C10: at the 12-byte input consisting of the ADPCM magic `"bw10"`
followed by 8 zero bytes, the record is accepted (`payload_size = 0`
passes both length guards), yet the C++ constructs the sample data from
the iterator range `[data + 8, data + 4 + payload_size)` whose end,
`4 + payload_size = 4`, lies before its begin, 8 — an invalid range.
The embedded evaluation shows the acceptance and the inverted bounds. -/
theorem parse_adpcm_invalid_range :
    bcMediaParse [0x30, 0x31, 0x77, 0x62, 0, 0, 0, 0, 0, 0, 0, 0]
        = some (.adpcm { data := [] }, 8)
    ∧ 4 + read_u16_le (([0x30, 0x31, 0x77, 0x62, 0, 0, 0, 0, 0, 0, 0, 0] :
        List Nat).drop 4) 0 < 8 := by
  decide

/-! ## C3 — IFrame vs PFrame record layout -/

/-- C3 (counterexample): two buffers identical after their 4-byte
magics — one IFrame (`"cd00"`), one PFrame (`"cd10"`) — with
`additional_header_size = 1` (nonzero but `< 4`).  The claim says the
records have identical layout and total consumed size; the code
consumes 24 bytes for the IFrame (`parse_iframe` skips the additional
header only when it is `≥ 4`) but 25 for the PFrame (`parse_pframe`
always skips it). -/
theorem iframe_pframe_layout_counterexample :
    bcMediaParse ([0x30, 0x30, 0x64, 0x63] ++
        [72, 50, 54, 52, 0, 0, 0, 0, 1, 0, 0, 0, 0, 0, 0, 0, 0, 0, 0, 0, 0xAB])
      = some (.iframe { codec := .H264, microseconds := 0, posix_time := none,
                        data := [] }, 24)
    ∧ bcMediaParse ([0x30, 0x31, 0x64, 0x63] ++
        [72, 50, 54, 52, 0, 0, 0, 0, 1, 0, 0, 0, 0, 0, 0, 0, 0, 0, 0, 0, 0xAB])
      = some (.pframe { codec := .H264, microseconds := 0, data := [] }, 25) := by
  decide

/-- The amended C3 relation: the PFrame parse mirrors the IFrame parse
byte-for-byte — same consumed count, codec, timestamp and payload — and
only the IFrame extracts a POSIX time (exactly when the additional
header size is at least 4). -/
def pframeMatchesIframe (oi op : Option (BcMediaFrame × Nat))
    (ahs : Nat) (rest : List Nat) : Prop :=
  match oi, op with
  | none, none => True
  | some (.iframe f, ci), some (.pframe g, cp) =>
    ci = cp ∧ f.codec = g.codec ∧ f.microseconds = g.microseconds
      ∧ f.data = g.data
      ∧ f.posix_time = (if 4 ≤ ahs then some (read_u32_le rest 20) else none)
  | _, _ => False

/-- The record-level core of the amended C3: on the bytes after the
magic, `parse_pframe` agrees with `parse_iframe` whenever
`additional_header_size` is zero or at least 4. -/
theorem parse_iframe_pframe_agree (rest : List Nat)
    (hahs : read_u32_le rest 8 = 0 ∨ 4 ≤ read_u32_le rest 8) :
    pframeMatchesIframe
      ((parse_iframe rest).map (fun r => (.iframe r.1, r.2 + 4)))
      ((parse_pframe rest).map (fun r => (.pframe r.1, r.2 + 4)))
      (read_u32_le rest 8) rest := by
  simp only [parse_iframe, parse_pframe]
  by_cases h20 : rest.length < 20
  · rw [if_pos h20, if_pos h20]
    simp [pframeMatchesIframe]
  · rw [if_neg h20, if_neg h20]
    rcases hahs with hz | hge
    · rw [hz]
      rw [if_neg (by omega : ¬ 4 ≤ 0)]
      simp only [Nat.add_zero]
      by_cases hlen : rest.length
          < 20 + read_u32_le rest 4 + calculate_padding (read_u32_le rest 4)
      · rw [if_pos hlen, if_pos hlen]
        simp [pframeMatchesIframe]
      · rw [if_neg hlen, if_neg hlen]
        simp only [Option.map_some']
        simp [pframeMatchesIframe]
    · rw [if_pos hge]
      by_cases h24 : rest.length < 24
      · rw [if_pos h24]
        rw [if_pos (show rest.length < 20 + read_u32_le rest 8 + read_u32_le rest 4
            + calculate_padding (read_u32_le rest 4) by omega)]
        simp [pframeMatchesIframe]
      · rw [if_neg h24]
        by_cases hlen : rest.length < 20 + read_u32_le rest 8 + read_u32_le rest 4
            + calculate_padding (read_u32_le rest 4)
        · rw [if_pos hlen, if_pos hlen]
          simp [pframeMatchesIframe]
        · rw [if_neg hlen, if_neg hlen]
          simp only [Option.map_some']
          simp [pframeMatchesIframe, hge]

/-- C3 (amended): for every pair of buffers identical after their
4-byte magic — one with an IFrame magic, one with a PFrame magic — and
an `additional_header_size` that is zero or at least 4, the two parses
agree: both need more data, or both return records with the same
consumed size, codec, millisecond timestamp and payload bytes, with
only the IFrame extracting a POSIX timestamp (exactly when
`additional_header_size ≥ 4`).  (For `additional_header_size` in 1..3
the counterexample shows the layouts differ: the IFrame parser does not
skip the additional header, the PFrame parser does.) -/
theorem iframe_pframe_layout_agree
    (ib pb rest : List Nat)
    (hib : ib.length = 4) (hpb : pb.length = 4)
    (hi1 : 0x63643030 ≤ read_u32_le ib 0) (hi2 : read_u32_le ib 0 ≤ 0x63643039)
    (hp1 : 0x63643130 ≤ read_u32_le pb 0) (hp2 : read_u32_le pb 0 ≤ 0x63643139)
    (hahs : read_u32_le rest 8 = 0 ∨ 4 ≤ read_u32_le rest 8) :
    pframeMatchesIframe (bcMediaParse (ib ++ rest)) (bcMediaParse (pb ++ rest))
      (read_u32_le rest 8) rest := by
  have hdropi : (ib ++ rest).drop 4 = rest := by
    rw [List.drop_append_of_le_length (by omega), List.drop_eq_nil_of_le (by omega)]
    rfl
  have hdropp : (pb ++ rest).drop 4 = rest := by
    rw [List.drop_append_of_le_length (by omega), List.drop_eq_nil_of_le (by omega)]
    rfl
  simp only [bcMediaParse]
  rw [if_neg (show ¬ ((ib ++ rest).length < 4)
      by simp only [List.length_append]; omega),
    if_neg (show ¬ ((pb ++ rest).length < 4)
      by simp only [List.length_append]; omega),
    read_u32_le_append rest (show 0 + 4 ≤ ib.length by omega),
    read_u32_le_append rest (show 0 + 4 ≤ pb.length by omega),
    hdropi, hdropp]
  rw [if_neg (show ¬ (read_u32_le ib 0 = 0x31303031 ∨ read_u32_le ib 0 = 0x32303031)
      by omega),
    if_pos (show 0x63643030 ≤ read_u32_le ib 0 ∧ read_u32_le ib 0 ≤ 0x63643039
      from ⟨hi1, hi2⟩),
    if_neg (show ¬ (read_u32_le pb 0 = 0x31303031 ∨ read_u32_le pb 0 = 0x32303031)
      by omega),
    if_neg (show ¬ (0x63643030 ≤ read_u32_le pb 0 ∧ read_u32_le pb 0 ≤ 0x63643039)
      by omega),
    if_pos (show 0x63643130 ≤ read_u32_le pb 0 ∧ read_u32_le pb 0 ≤ 0x63643139
      from ⟨hp1, hp2⟩)]
  exact parse_iframe_pframe_agree rest hahs

/-- C3 witness: a complete record pair with `additional_header_size = 4`
(IFrame magic `"cd00"`, PFrame magic `"cd10"`, codec `"H265"`,
microseconds 1, POSIX time 2, empty payload). -/
theorem iframe_pframe_layout_agree_witness :
    pframeMatchesIframe
      (bcMediaParse ([0x30, 0x30, 0x64, 0x63] ++
        [72, 50, 54, 53, 0, 0, 0, 0, 4, 0, 0, 0, 1, 0, 0, 0, 0, 0, 0, 0, 2, 0, 0, 0]))
      (bcMediaParse ([0x30, 0x31, 0x64, 0x63] ++
        [72, 50, 54, 53, 0, 0, 0, 0, 4, 0, 0, 0, 1, 0, 0, 0, 0, 0, 0, 0, 2, 0, 0, 0]))
      (read_u32_le
        [72, 50, 54, 53, 0, 0, 0, 0, 4, 0, 0, 0, 1, 0, 0, 0, 0, 0, 0, 0, 2, 0, 0, 0] 8)
      [72, 50, 54, 53, 0, 0, 0, 0, 4, 0, 0, 0, 1, 0, 0, 0, 0, 0, 0, 0, 2, 0, 0, 0] :=
  iframe_pframe_layout_agree
    [0x30, 0x30, 0x64, 0x63] [0x30, 0x31, 0x64, 0x63]
    [72, 50, 54, 53, 0, 0, 0, 0, 4, 0, 0, 0, 1, 0, 0, 0, 0, 0, 0, 0, 2, 0, 0, 0]
    (by decide) (by decide) (by decide) (by decide) (by decide) (by decide)
    (by decide)

/-! ## C2 — the send path's cipher offset -/

/-- C2 (code bug): with BcXor installed and `send_offset_ = 0` (as
right after `reset_encryption_offsets`), sending a 2-byte-body message
whose `channel_id` is 1 produces a wire image whose body is encrypted
with offset 1 — `crypto_.encrypt(msg.header.channel_id, body)` at
src/client/connection.cpp:137 — and not with the current
`send_offset_` 0 that the claim (and the code's own
`"Encrypting ... with offset {}"` log line and the
`send_offset()` accessor comment) designate; the counter itself does
advance by the body length. -/
theorem send_message_offset_bug :
    (send_message { cipher := .bcXor }
        { header := { msg_id := 1, body_len := 2, channel_id := 1, msg_num := 1,
                      msg_class := 0x6414, payload_offset := some 0 },
          payload_data := [0xAA, 0xBB] }).1
      = BcHeader.serialize { msg_id := 1, body_len := 2, channel_id := 1, msg_num := 1,
                             msg_class := 0x6414, payload_offset := some 0 }
          ++ bc_encrypt_decrypt 1 [0xAA, 0xBB]
    ∧ bc_encrypt_decrypt 1 [0xAA, 0xBB] ≠ bc_encrypt_decrypt 0 [0xAA, 0xBB]
    ∧ (send_message { cipher := .bcXor }
        { header := { msg_id := 1, body_len := 2, channel_id := 1, msg_num := 1,
                      msg_class := 0x6414, payload_offset := some 0 },
          payload_data := [0xAA, 0xBB] }).2.send_offset = 2 := by
  decide

/-! ## C4 / C5 — selective payload decryption on the receive path -/

/-- The empty extension never reports binary data. -/
theorem hasBinaryData1_nil : hasBinaryData1 [] = false := by decide

/-- `insertNum` contains the inserted number. -/
theorem insertNum_self (s : List Nat) (n : Nat) : n ∈ insertNum s n := by
  unfold insertNum
  split
  · assumption
  · exact List.mem_cons_self n s

/-- `insertNum` keeps the existing members. -/
theorem insertNum_mem {s : List Nat} {m : Nat} (hm : m ∈ s) (n : Nat) :
    m ∈ insertNum s n := by
  unfold insertNum
  split
  · exact hm
  · exact List.mem_cons_of_mem n hm

/-- Every cipher maps the empty buffer to the empty buffer. -/
theorem cryptoDecrypt_nil (c : CipherState) (off : Nat) :
    cryptoDecrypt c off [] = [] := by
  cases c <;> rfl

/-- C5: (i) any received message whose decrypted extension declares
`<binaryData>1</binaryData>` puts its `msg_num` into the binary-mode
set; (ii) the set is sticky — processing a message never removes a
member; (iii) a message with no `payload_offset` (absent or zero) whose
`msg_num` is in the set keeps its payload undecrypted, as does (iv)
one with `msg_id` VIDEO (3) or VIDEO_STOP (4); while (v) every other
no-payload-offset payload is decrypted with the current cipher. -/
theorem receive_binary_mode_spec :
    (∀ st h body,
        hasBinaryData1 (processBody st h body).1.extension_data = true →
        h.msg_num ∈ (processBody st h body).2.binary_mode_nums)
    ∧ (∀ st h body m, m ∈ st.binary_mode_nums →
        m ∈ (processBody st h body).2.binary_mode_nums)
    ∧ (∀ st h body, h.body_len = body.length →
        (h.payload_offset = none ∨ h.payload_offset = some 0) →
        h.msg_num ∈ st.binary_mode_nums →
        (processBody st h body).1.payload_data = body)
    ∧ (∀ st h body, h.body_len = body.length →
        (h.payload_offset = none ∨ h.payload_offset = some 0) →
        (h.msg_id = 3 ∨ h.msg_id = 4) →
        (processBody st h body).1.payload_data = body)
    ∧ (∀ st h body, h.body_len = body.length →
        (h.payload_offset = none ∨ h.payload_offset = some 0) →
        h.msg_num ∉ st.binary_mode_nums → h.msg_id ≠ 3 → h.msg_id ≠ 4 →
        (processBody st h body).1.payload_data
          = cryptoDecrypt st.cipher h.channel_id body) := by
  refine ⟨?_, ?_, ?_, ?_, ?_⟩
  · intro st h body hbin
    by_cases hb0 : h.body_len = 0
    · simp only [processBody, if_pos hb0, hasBinaryData1_nil] at hbin
      exact absurd hbin (by simp)
    · rcases hpo : h.payload_offset with _ | o
      · simp only [processBody, if_neg hb0, hpo, hasBinaryData1_nil] at hbin
        exact absurd hbin (by simp)
      · by_cases ho : o > 0
        · by_cases hol : o ≤ body.length
          · have hraw : body.take o ≠ [] := by
              intro hnil
              rw [List.take_eq_nil_iff] at hnil
              rcases hnil with h1 | h1
              · omega
              · rw [h1] at hol; simp at hol; omega
            have hext : (if (!st.cipher.isUnencrypted && decide (body.take o ≠ [])) = true
                then cryptoDecrypt st.cipher h.channel_id (body.take o)
                else body.take o) = cryptoDecrypt st.cipher h.channel_id (body.take o) := by
              cases st.cipher with
              | unencrypted => simp [CipherState.isUnencrypted, cryptoDecrypt]
              | bcXor => simp [CipherState.isUnencrypted, hraw]
              | aes E => simp [CipherState.isUnencrypted, hraw]
              | fullAes E => simp [CipherState.isUnencrypted, hraw]
            simp only [processBody, if_neg hb0, hpo, if_pos ho, if_pos hol, hext] at hbin ⊢
            rw [if_pos (show _ by
              simp only [Bool.and_eq_true, decide_eq_true_eq]
              exact ⟨hraw, hbin⟩)]
            exact insertNum_self _ _
          · simp only [processBody, if_neg hb0, hpo, if_pos ho, if_neg hol,
              hasBinaryData1_nil] at hbin
            exact absurd hbin (by simp)
        · simp only [processBody, if_neg hb0, hpo, if_neg ho,
            hasBinaryData1_nil] at hbin
          exact absurd hbin (by simp)
  · intro st h body m hm
    by_cases hb0 : h.body_len = 0
    · simp only [processBody, if_pos hb0]
      exact hm
    · rcases hpo : h.payload_offset with _ | o
      · simp only [processBody, if_neg hb0, hpo]
        exact hm
      · by_cases ho : o > 0
        · by_cases hol : o ≤ body.length
          · simp only [processBody, if_neg hb0, hpo, if_pos ho, if_pos hol]
            split <;> try split
            all_goals first | exact insertNum_mem hm _ | exact hm
          · simp only [processBody, if_neg hb0, hpo, if_pos ho, if_neg hol]
            exact hm
        · simp only [processBody, if_neg hb0, hpo, if_neg ho]
          exact hm
  · intro st h body hbl hpo hmem
    by_cases hb0 : h.body_len = 0
    · have hbody : body = [] := by
        rw [hbl] at hb0
        exact List.length_eq_zero.mp hb0
      subst hbody
      simp only [processBody, if_pos hb0]
    · rcases hpo with hpo | hpo
      · simp only [processBody, if_neg hb0, hpo]
        split
        · next hcon => simp [hmem] at hcon
        · rfl
      · simp only [processBody, if_neg hb0, hpo, if_neg (by omega : ¬ (0 : Nat) > 0)]
        split
        · next hcon => simp [hmem] at hcon
        · rfl
  · intro st h body hbl hpo hvid
    by_cases hb0 : h.body_len = 0
    · have hbody : body = [] := by
        rw [hbl] at hb0
        exact List.length_eq_zero.mp hb0
      subst hbody
      simp only [processBody, if_pos hb0]
    · rcases hpo with hpo | hpo
      · simp only [processBody, if_neg hb0, hpo]
        split
        · next hcon =>
          rcases hvid with hv | hv <;> simp [hv] at hcon
        · rfl
      · simp only [processBody, if_neg hb0, hpo, if_neg (by omega : ¬ (0 : Nat) > 0)]
        split
        · next hcon =>
          rcases hvid with hv | hv <;> simp [hv] at hcon
        · rfl
  · intro st h body hbl hpo hmem h3 h4
    by_cases hb0 : h.body_len = 0
    · have hbody : body = [] := by
        rw [hbl] at hb0
        exact List.length_eq_zero.mp hb0
      subst hbody
      simp only [processBody, if_pos hb0, cryptoDecrypt_nil]
    · obtain ⟨c, so, ro, bm⟩ := st
      simp only at hmem
      rcases hpo with hpo | hpo <;>
        [simp only [processBody, if_neg hb0, hpo];
         simp only [processBody, if_neg hb0, hpo, if_neg (by omega : ¬ (0 : Nat) > 0)]] <;>
      cases c with
      | unencrypted =>
        rw [if_neg (by simp [CipherState.isUnencrypted])]
        simp [cryptoDecrypt]
      | bcXor =>
        rw [if_pos (by simp [CipherState.isUnencrypted, hmem, h3, h4])]
      | aes E =>
        rw [if_pos (by simp [CipherState.isUnencrypted, hmem, h3, h4])]
      | fullAes E =>
        rw [if_pos (by simp [CipherState.isUnencrypted, hmem, h3, h4])]

/-- C5 witness: (i) a BcXor-encrypted extension declaring
`<binaryData>1</binaryData>` puts `msg_num = 7` into the set; (ii) a
later VIDEO message with `msg_num = 7` and no `payload_offset` keeps
its payload raw; (iii) a PING (93) payload is decrypted with the
current cipher. -/
theorem receive_binary_mode_spec_witness :
    (7 : Nat) ∈ (processBody { cipher := .bcXor }
        { msg_num := 7, body_len := 27, payload_offset := some 26 }
        (bc_encrypt_decrypt 0 binaryDataTag ++ [5])).2.binary_mode_nums
    ∧ (processBody { cipher := .bcXor, binary_mode_nums := [7] }
        { msg_id := 3, msg_num := 7, body_len := 2 } [1, 2]).1.payload_data = [1, 2]
    ∧ (processBody { cipher := .bcXor }
        { msg_id := 93, msg_num := 9, body_len := 2 } [1, 2]).1.payload_data
        = cryptoDecrypt .bcXor 0 [1, 2] :=
  ⟨receive_binary_mode_spec.1 _ _ _ (by decide),
   receive_binary_mode_spec.2.2.1 _ _ _ (by decide) (Or.inl rfl) (by decide),
   receive_binary_mode_spec.2.2.2.2 _ _ _ (by decide) (Or.inl rfl) (by decide)
     (by decide) (by decide)⟩

/-- C4: under FullAes, when the decrypted extension declares binary
data and carries `encryptLen = n`, the received payload is: left
untransformed when `n = 0`; the AES-CFB decryption (IV freshly reset)
of its first `n` bytes followed by the untouched cleartext tail when
`0 < n <` the payload length; and the decryption of the whole payload
when `n` is at least the payload length. -/
theorem receive_fullaes_encrypt_len_spec
    (E : List Nat → List Nat) (st : ConnState) (h : BcHeader)
    (body : List Nat) (o n : Nat)
    (hcip : st.cipher = CipherState.fullAes E)
    (hbl : h.body_len = body.length)
    (hpo : h.payload_offset = some o) (ho : 0 < o) (hol : o ≤ body.length)
    (hbin : hasBinaryData1 (aes_decrypt E (body.take o)) = true)
    (hn : parseEncryptLen (aes_decrypt E (body.take o)) = some n) :
    (processBody st h body).1.payload_data
      = if n = 0 then body.drop o
        else if n < (body.drop o).length then
          aes_decrypt E ((body.drop o).take n) ++ (body.drop o).drop n
        else aes_decrypt E (body.drop o) := by
  obtain ⟨c, so, ro, bm⟩ := st
  simp only at hcip
  subst hcip
  have hb0 : ¬ h.body_len = 0 := by rw [hbl]; omega
  have hraw : body.take o ≠ [] := by
    intro hnil
    rw [List.take_eq_nil_iff] at hnil
    rcases hnil with h1 | h1
    · omega
    · rw [h1] at hol; simp at hol; omega
  simp only [processBody, if_neg hb0, hpo, if_pos ho, if_pos hol]
  have hc1 : (!(CipherState.fullAes E).isUnencrypted
      && decide (List.take o body ≠ [])) = true := by
    simp only [CipherState.isUnencrypted, Bool.not_false, Bool.true_and,
      decide_eq_true_eq]
    exact hraw
  have hext : (if (!(CipherState.fullAes E).isUnencrypted
        && decide (List.take o body ≠ [])) = true
      then cryptoDecrypt (CipherState.fullAes E) h.channel_id (List.take o body)
      else List.take o body) = aes_decrypt E (List.take o body) := by
    rw [if_pos hc1]
    rfl
  have hco : (decide (List.take o body ≠ [])
      && hasBinaryData1 (aes_decrypt E (List.take o body))) = true := by
    simp only [Bool.and_eq_true, decide_eq_true_eq]
    exact ⟨hraw, hbin⟩
  rw [hext, if_pos hraw, hn, hco]
  simp only [CipherState.isFullAes, CipherState.isUnencrypted, Bool.true_or,
    Bool.true_and, Bool.not_true, Bool.false_and, Bool.and_false, Option.elim,
    Option.getD_some, decide_eq_true_eq, cryptoDecrypt]
  by_cases hn0 : n = 0
  · subst hn0
    simp
  · rw [if_pos (by omega : 0 < n), if_neg hn0]

/-- A concrete block function for the C4 witness: constant zero
keystream blocks (so the CFB transform is the identity, which keeps the
evaluation readable). -/
def c4E : List Nat → List Nat := fun _ => List.replicate 16 0

/-- The C4 witness extension: declares binary data and
`encryptLen = 2`; 52 ASCII bytes. -/
def c4Ext : List Nat :=
  asciiBytes "<binaryData>1</binaryData><encryptLen>2</encryptLen>"

/-- The C4 witness body: the extension followed by a 3-byte payload. -/
def c4Body : List Nat := c4Ext ++ [10, 20, 30]

/-- C4 witness: a FullAes message whose decrypted extension declares
`binaryData = 1` and `encryptLen = 2` over a 3-byte payload: the first
2 payload bytes are CFB-decrypted, the last is kept cleartext. -/
theorem receive_fullaes_encrypt_len_spec_witness :
    (processBody { cipher := .fullAes c4E }
        { body_len := 55, payload_offset := some 52 } c4Body).1.payload_data
      = if 2 = 0 then c4Body.drop 52
        else if 2 < (c4Body.drop 52).length then
          aes_decrypt c4E ((c4Body.drop 52).take 2) ++ (c4Body.drop 52).drop 2
        else aes_decrypt c4E (c4Body.drop 52) :=
  receive_fullaes_encrypt_len_spec c4E _ _ c4Body 52 2 rfl (by decide) rfl
    (by decide) (by decide) (by decide) (by decide)

end Bachuan
